import Mathlib

/-!
Verification of the `packed_bits!` bit-packing code generator.

The generator produces, for a declaration `struct Name(uW) { f0: b0, f1: b1, ... }`,
a single-integer struct together with

* a constructor
  `fn new(f0, f1, ...) { let mut packed = 0; let mut offset = 0;
     for i { packed |= (fields[i] & ((1 << bits[i]) - 1)) << offset; offset += bits[i]; }
     Self(packed) }`
* one getter per field; the first field's getter is `self.0 & ((1 << b0) - 1)`
  and every later field's getter is `(self.0 >> offset_i) & ((1 << b_i) - 1)`
  with `offset_i` the sum of the widths before field `i`.

We embed this over `Nat`.  A storage value of width `W` is a natural below `2 ^ W`;
the left shift inside the constructor is followed by an explicit `% 2 ^ W`,
which is the machine behaviour of the `W`-bit shift for shift amounts below `W`.
Shift amounts `≥ W` and mask widths `≥ W` are overflow errors in the source
language; the `Checked` variants return `none` exactly there, and `WF` states
the side conditions under which the generated code is accepted at all.
-/

namespace PackedBits

/-- The field mask `(1 << b) - 1` for a field of declared width `b`. -/
def mask (b : Nat) : Nat := (1 <<< b) - 1

/-- Bit offset of field `i`: the sum of the declared widths of fields `0 .. i-1`,
built up exactly as the getter arm of the generator accumulates `$offset + $first_bits`. -/
def offset : List Nat → Nat → Nat
  | _, 0 => 0
  | [], _ + 1 => 0
  | b :: rest, i + 1 => b + offset rest i

/-- The constructor loop: `packed |= (fields[i] & mask) << offset; offset += bits[i]`,
with the shift result reduced to the `W`-bit storage. -/
def packLoop (W : Nat) : List (Nat × Nat) → Nat → Nat → Nat
  | [], packed, _ => packed
  | (v, b) :: rest, packed, off =>
      packLoop W rest (packed ||| (((v &&& mask b) <<< off) % 2 ^ W)) (off + b)

/-- The generated constructor `new`, taking one raw value per field in
declaration order (paired here with the declared widths). -/
def new (W : Nat) (ws vs : List Nat) : Nat :=
  packLoop W (vs.zip ws) 0 0

/-- The constructor loop with the source language's shift-overflow checks made
explicit: `1 << b` demands `b < W` and `x << off` demands `off < W`; a violation
is a failure (`none`), not a value. -/
def packLoopChecked (W : Nat) : List (Nat × Nat) → Nat → Nat → Option Nat
  | [], packed, _ => some packed
  | (v, b) :: rest, packed, off =>
      if b < W ∧ off < W then
        packLoopChecked W rest (packed ||| (((v &&& mask b) <<< off) % 2 ^ W)) (off + b)
      else none

/-- The generated constructor with overflow checks. -/
def newChecked (W : Nat) (ws vs : List Nat) : Option Nat :=
  packLoopChecked W (vs.zip ws) 0 0

/-- The constructor loop over unbounded naturals: no reduction to the storage
width at all.  Used to state that the real constructor is exactly this value
taken modulo `2 ^ W`. -/
def packLoopU : List (Nat × Nat) → Nat → Nat → Nat
  | [], packed, _ => packed
  | (v, b) :: rest, packed, off =>
      packLoopU rest (packed ||| ((v &&& mask b) <<< off)) (off + b)

/-- The constructor over unbounded naturals. -/
def newUnbounded (ws vs : List Nat) : Nat :=
  packLoopU (vs.zip ws) 0 0

/-- The getter the generator emits for field `i` of a declaration with widths
`ws`, applied to the stored integer `s`: the first field's arm has no shift,
every later field's arm shifts by the field's offset and masks. -/
def getField (ws : List Nat) (i : Nat) (s : Nat) : Nat :=
  match i with
  | 0 => s &&& mask (ws.getD 0 0)
  | j + 1 => (s >>> offset ws (j + 1)) &&& mask (ws.getD (j + 1) 0)

/-- The general getter formula `(s >> offset_i) & mask_i`, at every index
including the first. -/
def getFieldGeneral (ws : List Nat) (i : Nat) (s : Nat) : Nat :=
  (s >>> offset ws i) &&& mask (ws.getD i 0)

/-- The getter with the source language's shift/mask overflow checks made
explicit: the mask constant demands `b < W`, and the shift (absent on the
first field) demands `offset < W`. -/
def getFieldChecked (W : Nat) (ws : List Nat) (i : Nat) (s : Nat) : Option Nat :=
  if ws.getD i 0 < W then
    match i with
    | 0 => some (s &&& mask (ws.getD 0 0))
    | j + 1 =>
        if offset ws (j + 1) < W then
          some ((s >>> offset ws (j + 1)) &&& mask (ws.getD (j + 1) 0))
        else none
  else none

/-- Well-formed declaration: every generated mask constant `(1 << b) - 1` and
every generated getter shift amount stays below the storage width `W`.  These
are exactly the conditions under which the generated code contains no
overflowing constant and the constructor loop no overflowing shift. -/
def WF (W : Nat) (ws : List Nat) : Prop :=
  ∀ i ∈ List.range ws.length, ws.getD i 0 < W ∧ offset ws i < W

/-- Which bit positions the remaining (value, width) pairs set, starting at a
running offset: a separate description of the constructor loop used to reason
bit by bit. -/
def listBit (W : Nat) : List (Nat × Nat) → Nat → Nat → Bool
  | [], _, _ => false
  | (v, b) :: rest, off, j =>
      (decide (j < W) && decide (off ≤ j) && decide (j < off + b)
        && v.testBit (j - off)) || listBit W rest (off + b) j

theorem mask_eq (b : Nat) : mask b = 2 ^ b - 1 := by
  simp [mask, Nat.one_shiftLeft]

theorem testBit_mask (b j : Nat) : (mask b).testBit j = decide (j < b) := by
  rw [mask_eq]; exact Nat.testBit_two_pow_sub_one b j

theorem offset_zero (ws : List Nat) : offset ws 0 = 0 := by
  cases ws <;> rfl

theorem offset_nil (i : Nat) : offset [] i = 0 := by
  cases i <;> rfl

theorem offset_succ (ws : List Nat) : ∀ i, offset ws (i + 1) = offset ws i + ws.getD i 0 := by
  induction ws with
  | nil => intro i; simp [offset_nil]
  | cons b rest ih =>
      intro i
      cases i with
      | zero => simp [offset, offset_zero]
      | succ k => simp [offset, ih k, Nat.add_assoc]

theorem offset_mono (ws : List Nat) {i j : Nat} (h : i ≤ j) : offset ws i ≤ offset ws j := by
  induction h with
  | refl => exact Nat.le_refl _
  | step _ ih => exact Nat.le_trans ih (by rw [offset_succ]; omega)

theorem offset_add_width_le (ws : List Nat) {i j : Nat} (h : i < j) :
    offset ws i + ws.getD i 0 ≤ offset ws j := by
  rw [← offset_succ]
  exact offset_mono ws h

theorem offset_le_sum (ws : List Nat) : ∀ i, offset ws i ≤ ws.sum := by
  induction ws with
  | nil => intro i; cases i <;> simp [offset]
  | cons b rest ih =>
      intro i
      cases i with
      | zero => simp [offset_zero]
      | succ k => simpa [offset, Nat.add_le_add_iff_left] using ih k

theorem offset_add_width_le_sum (ws : List Nat) :
    ∀ i, i < ws.length → offset ws i + ws.getD i 0 ≤ ws.sum := by
  induction ws with
  | nil => intro i h; simp at h
  | cons b rest ih =>
      intro i h
      cases i with
      | zero => simp [offset_zero, offset_le_sum, Nat.add_comm]
      | succ k =>
          have := ih k (by simpa using h)
          simp only [offset, List.getD_cons_succ, List.sum_cons]
          omega

theorem testBit_packLoop (W : Nat) :
    ∀ (l : List (Nat × Nat)) (packed off j : Nat),
      (packLoop W l packed off).testBit j = (packed.testBit j || listBit W l off j) := by
  intro l
  induction l with
  | nil => intro packed off j; simp [packLoop, listBit]
  | cons hd tl ih =>
      intro packed off j
      obtain ⟨v, b⟩ := hd
      rw [packLoop, ih, listBit]
      simp only [Nat.testBit_or, Nat.testBit_mod_two_pow, Nat.testBit_shiftLeft,
        Nat.testBit_and, testBit_mask]
      by_cases h1 : j < W <;> by_cases h2 : off ≤ j <;>
        simp [h1, h2, Bool.or_assoc]
      by_cases h3 : j - off < b
      · have h4 : j < off + b := by omega
        simp [h3, h4, Bool.and_comm]
      · have h4 : ¬ j < off + b := by omega
        simp [h3, h4]

theorem testBit_new (W : Nat) (ws vs : List Nat) (j : Nat) :
    (new W ws vs).testBit j = listBit W (vs.zip ws) 0 j := by
  rw [new, testBit_packLoop]
  simp

theorem listBit_eq_false_of_lt (W : Nat) :
    ∀ (l : List (Nat × Nat)) (off j : Nat), j < off → listBit W l off j = false := by
  intro l
  induction l with
  | nil => intro off j _; rfl
  | cons hd tl ih =>
      intro off j h
      obtain ⟨v, b⟩ := hd
      rw [listBit]
      have h2 : ¬ off ≤ j := by omega
      simp [h2, ih (off + b) j (by omega)]

theorem listBit_eq_false_of_sum_le (W : Nat) :
    ∀ (ws vs : List Nat) (off j : Nat), off + ws.sum ≤ j →
      listBit W (vs.zip ws) off j = false := by
  intro ws
  induction ws with
  | nil => intro vs off j _; cases vs <;> rfl
  | cons b rest ih =>
      intro vs off j h
      cases vs with
      | nil => rfl
      | cons v vtl =>
          rw [List.zip_cons_cons, listBit]
          have h2 : ¬ j < off + b := by
            simp only [List.sum_cons] at h; omega
          have h3 : (off + b) + rest.sum ≤ j := by
            simp only [List.sum_cons] at h; omega
          simp [h2, ih vtl (off + b) j h3]

theorem listBit_window (W : Nat) :
    ∀ (ws vs : List Nat) (i off k : Nat),
      vs.length = ws.length → i < ws.length → k < ws.getD i 0 →
      off + offset ws i + ws.getD i 0 ≤ W →
      listBit W (vs.zip ws) off (off + offset ws i + k) = (vs.getD i 0).testBit k := by
  intro ws
  induction ws with
  | nil => intro vs i off k _ hi; simp at hi
  | cons b rest ih =>
      intro vs i off k hlen hi hk hfit
      cases vs with
      | nil => simp at hlen
      | cons v vtl =>
          rw [List.zip_cons_cons, listBit]
          cases i with
          | zero =>
              rw [offset_zero] at hfit ⊢
              simp only [List.getD_cons_zero] at hk hfit ⊢
              simp only [Nat.add_zero] at hfit ⊢
              have h1 : off + k < W := by omega
              have h2 : off ≤ off + k := by omega
              have h3 : off + k < off + b := by omega
              have h4 : off + k - off = k := by omega
              rw [listBit_eq_false_of_lt W _ (off + b) _ (by omega)]
              simp [h1, h2, h3, h4]
          | succ m =>
              have hoff : offset (b :: rest) (m + 1) = b + offset rest m := rfl
              simp only [List.getD_cons_succ] at hk hfit ⊢
              rw [hoff] at hfit ⊢
              have h3 : ¬ off + (b + offset rest m) + k < off + b := by omega
              simp only [h3, decide_False, Bool.and_false, Bool.false_and,
                Bool.false_or]
              have harg : off + (b + offset rest m) + k
                  = (off + b) + offset rest m + k := by omega
              have hfit2 : (off + b) + offset rest m + rest.getD m 0 ≤ W := by omega
              rw [harg, ih vtl m (off + b) k (by simpa using hlen) (by simpa using hi) hk hfit2]

theorem listBit_congr (W : Nat) :
    ∀ (ws vs vs' : List Nat) (off j : Nat),
      vs.length = ws.length → vs'.length = ws.length →
      (∀ h, h < ws.length → off + offset ws h ≤ j → j < off + offset ws h + ws.getD h 0 →
        vs.getD h 0 = vs'.getD h 0) →
      listBit W (vs.zip ws) off j = listBit W (vs'.zip ws) off j := by
  intro ws
  induction ws with
  | nil => intro vs vs' off j hlen hlen' _; cases vs <;> cases vs' <;> simp_all
  | cons b rest ih =>
      intro vs vs' off j hlen hlen' hagree
      cases vs with
      | nil => simp at hlen
      | cons v vtl =>
          cases vs' with
          | nil => simp at hlen'
          | cons v' vtl' =>
              rw [List.zip_cons_cons, List.zip_cons_cons, listBit, listBit]
              have htl : listBit W (vtl.zip rest) (off + b) j
                  = listBit W (vtl'.zip rest) (off + b) j := by
                apply ih vtl vtl' (off + b) j (by simpa using hlen) (by simpa using hlen')
                intro h hh hlo hhi
                have := hagree (h + 1) (by simpa using hh)
                simp only [List.getD_cons_succ] at this
                apply this
                · have : offset (b :: rest) (h + 1) = b + offset rest h := rfl
                  omega
                · have : offset (b :: rest) (h + 1) = b + offset rest h := rfl
                  omega
              rw [htl]
              by_cases hwin : off ≤ j ∧ j < off + b
              · have hv : v = v' := by
                  have h0 := hagree 0 (by simp)
                  rw [offset_zero] at h0
                  simpa using h0 (by omega) (by simp only [List.getD_cons_zero]; omega)
                rw [hv]
              · have hv : ∀ u : Nat,
                    (decide (j < W) && decide (off ≤ j) && decide (j < off + b)
                      && u.testBit (j - off)) = false := by
                  intro u
                  rcases not_and_or.mp hwin with h | h <;> simp [h]
                rw [hv v, hv v']

theorem packLoopChecked_eq (W : Nat) :
    ∀ (ws vs : List Nat) (packed off : Nat),
      vs.length = ws.length →
      (∀ i, i < ws.length → ws.getD i 0 < W ∧ off + offset ws i < W) →
      packLoopChecked W (vs.zip ws) packed off = some (packLoop W (vs.zip ws) packed off) := by
  intro ws
  induction ws with
  | nil => intro vs packed off hlen _; cases vs <;> simp_all [packLoopChecked, packLoop]
  | cons b rest ih =>
      intro vs packed off hlen hcond
      cases vs with
      | nil => simp at hlen
      | cons v vtl =>
          rw [List.zip_cons_cons, packLoopChecked, packLoop]
          have h0 := hcond 0 (by simp)
          rw [offset_zero, List.getD_cons_zero] at h0
          rw [if_pos ⟨h0.1, by omega⟩]
          refine ih vtl _ (off + b) (by simpa using hlen) ?_
          intro i hi
          have := hcond (i + 1) (by simpa using hi)
          rw [List.getD_cons_succ] at this
          have hoff : offset (b :: rest) (i + 1) = b + offset rest i := rfl
          exact ⟨this.1, by omega⟩

theorem getField_eq_general (ws : List Nat) (i : Nat) (s : Nat) :
    getField ws i s = getFieldGeneral ws i s := by
  cases i with
  | zero => rw [getField, getFieldGeneral, offset_zero, Nat.shiftRight_zero]
  | succ j => rfl

theorem getFieldGeneral_new (W : Nat) (ws vs : List Nat) (i : Nat)
    (hlen : vs.length = ws.length) (hi : i < ws.length)
    (hfit : offset ws i + ws.getD i 0 ≤ W) :
    getFieldGeneral ws i (new W ws vs) = vs.getD i 0 % 2 ^ ws.getD i 0 := by
  apply Nat.eq_of_testBit_eq
  intro k
  rw [getFieldGeneral, mask_eq, Nat.testBit_and, Nat.testBit_shiftRight,
    Nat.testBit_two_pow_sub_one, Nat.testBit_mod_two_pow, testBit_new]
  by_cases hk : k < ws.getD i 0
  · have hw := listBit_window W ws vs i 0 k hlen hi hk (by omega)
    simp only [Nat.zero_add] at hw
    rw [hw]
    have hd : decide (k < ws.getD i 0) = true := decide_eq_true hk
    rw [hd, Bool.and_true, Bool.true_and]
  · have hd : decide (k < ws.getD i 0) = false := decide_eq_false hk
    rw [hd, Bool.and_false, Bool.false_and]

theorem WF_elim {W : Nat} {ws : List Nat} (hWF : WF W ws) {i : Nat} (hi : i < ws.length) :
    ws.getD i 0 < W ∧ offset ws i < W :=
  hWF i (List.mem_range.mpr hi)

instance instDecidableWF (W : Nat) (ws : List Nat) : Decidable (WF W ws) :=
  inferInstanceAs
    (Decidable (∀ i ∈ List.range ws.length, ws.getD i 0 < W ∧ offset ws i < W))

/-- Which bit positions the remaining pairs set when no storage-width reduction
is applied at all. -/
def listBitU : List (Nat × Nat) → Nat → Nat → Bool
  | [], _, _ => false
  | (v, b) :: rest, off, j =>
      (decide (off ≤ j) && decide (j < off + b) && v.testBit (j - off))
        || listBitU rest (off + b) j

theorem testBit_packLoopU :
    ∀ (l : List (Nat × Nat)) (packed off j : Nat),
      (packLoopU l packed off).testBit j = (packed.testBit j || listBitU l off j) := by
  intro l
  induction l with
  | nil => intro packed off j; simp [packLoopU, listBitU]
  | cons hd tl ih =>
      intro packed off j
      obtain ⟨v, b⟩ := hd
      rw [packLoopU, ih, listBitU]
      simp only [Nat.testBit_or, Nat.testBit_shiftLeft, Nat.testBit_and, testBit_mask]
      by_cases h2 : off ≤ j <;> simp [h2, Bool.or_assoc]
      by_cases h3 : j - off < b
      · have h4 : j < off + b := by omega
        simp [h3, h4, Bool.and_comm]
      · have h4 : ¬ j < off + b := by omega
        simp [h3, h4]

theorem listBit_eq_truncated (W : Nat) :
    ∀ (l : List (Nat × Nat)) (off j : Nat),
      listBit W l off j = (decide (j < W) && listBitU l off j) := by
  intro l
  induction l with
  | nil => intro off j; simp [listBit, listBitU]
  | cons hd tl ih =>
      intro off j
      obtain ⟨v, b⟩ := hd
      rw [listBit, listBitU, ih]
      by_cases h1 : j < W <;> simp [h1]

theorem new_eq_unbounded_mod (W : Nat) (ws vs : List Nat) :
    new W ws vs = newUnbounded ws vs % 2 ^ W := by
  apply Nat.eq_of_testBit_eq
  intro j
  rw [testBit_new, Nat.testBit_mod_two_pow, newUnbounded, testBit_packLoopU,
    listBit_eq_truncated]
  simp

theorem testBit_new_eq_false_of_sum_le (W : Nat) (ws vs : List Nat) (j : Nat)
    (h : ws.sum ≤ j) : (new W ws vs).testBit j = false := by
  rw [testBit_new]
  exact listBit_eq_false_of_sum_le W ws vs 0 j (by omega)

theorem newChecked_eq (W : Nat) (ws vs : List Nat) (hWF : WF W ws)
    (hlen : vs.length = ws.length) : newChecked W ws vs = some (new W ws vs) := by
  rw [newChecked, new]
  apply packLoopChecked_eq W ws vs 0 0 hlen
  intro i hi
  have h := WF_elim hWF hi
  exact ⟨h.1, by omega⟩

theorem getField_congr_window (ws : List Nat) (i : Nat) (s s' : Nat)
    (h : ∀ j, offset ws i ≤ j → j < offset ws i + ws.getD i 0 →
      s.testBit j = s'.testBit j) :
    getField ws i s = getField ws i s' := by
  rw [getField_eq_general, getField_eq_general, getFieldGeneral, getFieldGeneral]
  apply Nat.eq_of_testBit_eq
  intro k
  rw [Nat.testBit_and, Nat.testBit_and, Nat.testBit_shiftRight, Nat.testBit_shiftRight,
    testBit_mask]
  by_cases hk : k < ws.getD i 0
  · rw [h (offset ws i + k) (by omega) (by omega)]
  · have hd : decide (k < ws.getD i 0) = false := decide_eq_false hk
    rw [hd, Bool.and_false, Bool.and_false]

/-- Claim C1: for every well-formed packed record declaration (storage width `W`,
declared widths `ws` with every generated mask and shift in range) whose widths
sum to at most `W`, constructing an instance from in-range raw values and
reading any field `i` back through its getter returns exactly the value that
was passed in field `i`'s position. -/
theorem round_trip (W : Nat) (ws vs : List Nat) (i : Nat)
    (hWF : WF W ws) (hlen : vs.length = ws.length) (hsum : ws.sum ≤ W)
    (hi : i < ws.length)
    (hrange : ∀ h ∈ List.range ws.length, vs.getD h 0 < 2 ^ ws.getD h 0) :
    getField ws i (new W ws vs) = vs.getD i 0 := by
  rw [getField_eq_general,
    getFieldGeneral_new W ws vs i hlen hi
      (Nat.le_trans (offset_add_width_le_sum ws i hi) hsum)]
  exact Nat.mod_eq_of_lt (hrange i (List.mem_range.mpr hi))

theorem round_trip_witness :
    getField [5, 4, 7] 1 (new 16 [5, 4, 7] [25, 12, 99]) = 12 :=
  round_trip 16 [5, 4, 7] [25, 12, 99] 1 (by decide) (by decide) (by decide)
    (by decide) (by decide)

/-- Claim C2: with the declaration's standing capacity invariant (widths sum to
at most `W`), an out-of-range raw value `v ≥ 2 ^ b` in field `i`'s position is
not rejected — construction still succeeds — and field `i`'s getter returns
`v % 2 ^ b`, never the original `v`. -/
theorem truncation (W : Nat) (ws vs : List Nat) (i : Nat)
    (hWF : WF W ws) (hlen : vs.length = ws.length) (hsum : ws.sum ≤ W)
    (hi : i < ws.length) (hv : 2 ^ ws.getD i 0 ≤ vs.getD i 0) :
    newChecked W ws vs = some (new W ws vs) ∧
    getField ws i (new W ws vs) = vs.getD i 0 % 2 ^ ws.getD i 0 ∧
    getField ws i (new W ws vs) ≠ vs.getD i 0 := by
  have hg : getField ws i (new W ws vs) = vs.getD i 0 % 2 ^ ws.getD i 0 := by
    rw [getField_eq_general]
    exact getFieldGeneral_new W ws vs i hlen hi
      (Nat.le_trans (offset_add_width_le_sum ws i hi) hsum)
  refine ⟨newChecked_eq W ws vs hWF hlen, hg, ?_⟩
  rw [hg]
  have hlt : vs.getD i 0 % 2 ^ ws.getD i 0 < 2 ^ ws.getD i 0 :=
    Nat.mod_lt _ (Nat.pow_pos (by omega))
  omega

theorem truncation_witness :
    newChecked 16 [5, 4, 7] [57, 12, 99] = some (new 16 [5, 4, 7] [57, 12, 99]) ∧
    getField [5, 4, 7] 0 (new 16 [5, 4, 7] [57, 12, 99]) = 57 % 2 ^ 5 ∧
    getField [5, 4, 7] 0 (new 16 [5, 4, 7] [57, 12, 99]) ≠ 57 :=
  truncation 16 [5, 4, 7] [57, 12, 99] 0 (by decide) (by decide) (by decide)
    (by decide) (by decide)

/-- Claim C3: for distinct declared fields `f ≠ g` of a well-formed declaration,
two constructor calls whose argument lists agree on every position except `f`
produce instances on which field `g`'s getter returns the same value. -/
theorem non_interference (W : Nat) (ws vs vs' : List Nat) (f g : Nat)
    (hWF : WF W ws) (hlen : vs.length = ws.length) (hlen' : vs'.length = ws.length)
    (hf : f < ws.length) (hg : g < ws.length) (hfg : f ≠ g)
    (hagree : ∀ h ∈ List.range ws.length, h ≠ f → vs.getD h 0 = vs'.getD h 0) :
    getField ws g (new W ws vs) = getField ws g (new W ws vs') := by
  apply getField_congr_window
  intro j hlo hhi
  rw [testBit_new, testBit_new]
  apply listBit_congr W ws vs vs' 0 j hlen hlen'
  intro h hh hlo' hhi'
  by_cases hhf : h = f
  · exfalso
    subst hhf
    rcases Nat.lt_or_ge h g with hlt | hge
    · have hle := offset_add_width_le ws hlt
      omega
    · have hgt : g < h := by omega
      have hle := offset_add_width_le ws hgt
      omega
  · exact hagree h (List.mem_range.mpr hh) hhf

theorem non_interference_witness :
    getField [5, 4, 7] 2 (new 16 [5, 4, 7] [25, 12, 99])
      = getField [5, 4, 7] 2 (new 16 [5, 4, 7] [31, 12, 99]) :=
  non_interference 16 [5, 4, 7] [25, 12, 99] [31, 12, 99] 0 2 (by decide) (by decide)
    (by decide) (by decide) (by decide) (by decide) (by decide)

/-- Claim C4: for a declaration the generator accepts (all masks and shifts in
range), no generated operation fails at run time: the constructor's checked
semantics produces a value (never `none`), and every field getter's checked
semantics produces a value, for all raw inputs and stored integers. -/
theorem no_runtime_failure (W : Nat) (ws vs : List Nat)
    (hWF : WF W ws) (hlen : vs.length = ws.length) :
    newChecked W ws vs = some (new W ws vs) ∧
    ∀ i ∈ List.range ws.length, ∀ s : Nat,
      getFieldChecked W ws i s = some (getField ws i s) := by
  refine ⟨newChecked_eq W ws vs hWF hlen, ?_⟩
  intro i hi s
  have h := WF_elim hWF (List.mem_range.mp hi)
  cases i with
  | zero =>
      rw [getFieldChecked, if_pos h.1]
      rfl
  | succ j =>
      rw [getFieldChecked, if_pos h.1]
      rw [if_pos h.2]
      rfl

theorem no_runtime_failure_witness :
    newChecked 16 [5, 4, 7] [25, 12, 99] = some (new 16 [5, 4, 7] [25, 12, 99]) ∧
    getFieldChecked 16 [5, 4, 7] 2 1945 = some (getField [5, 4, 7] 2 1945) :=
  ⟨(no_runtime_failure 16 [5, 4, 7] [25, 12, 99] (by decide) (by decide)).1,
   (no_runtime_failure 16 [5, 4, 7] [25, 12, 99] (by decide) (by decide)).2
     2 (by decide) 1945⟩

/-- Claim C5: the derived layout is the running sum of declared widths in
declaration order — field `0` sits at offset `0` and field `i + 1` at the
previous field's offset plus its width — and each field's mask is
`(1 <<< b) - 1 = 2 ^ b - 1` for its own declared width `b` alone. -/
theorem layout_offsets (ws : List Nat) (i : Nat) :
    offset ws 0 = 0 ∧
    offset ws (i + 1) = offset ws i + ws.getD i 0 ∧
    mask (ws.getD i 0) = 2 ^ ws.getD i 0 - 1 :=
  ⟨offset_zero ws, offset_succ ws i, mask_eq _⟩

/-- Claim C6: every generated getter computes `(s >>> offset) &&& mask`, its
result is bounded by the field's width (no sign extension), and it depends only
on the bits inside the field's own window of the stored integer. -/
theorem accessor_contract (ws : List Nat) (i : Nat) (s s' : Nat) :
    getField ws i s = (s >>> offset ws i) &&& mask (ws.getD i 0) ∧
    getField ws i s < 2 ^ ws.getD i 0 ∧
    ((∀ j, offset ws i ≤ j → j < offset ws i + ws.getD i 0 →
        s.testBit j = s'.testBit j) →
      getField ws i s = getField ws i s') := by
  refine ⟨getField_eq_general ws i s, ?_, getField_congr_window ws i s s'⟩
  rw [getField_eq_general, getFieldGeneral, mask_eq]
  have h1 : (s >>> offset ws i) &&& (2 ^ ws.getD i 0 - 1) ≤ 2 ^ ws.getD i 0 - 1 :=
    Nat.and_le_right
  have h2 : 0 < 2 ^ ws.getD i 0 := Nat.pow_pos (by omega)
  omega

theorem accessor_contract_witness :
    getField [5, 4, 7] 0 25 = getField [5, 4, 7] 0 57 :=
  (accessor_contract [5, 4, 7] 0 25 57).2.2 (by
    intro j h1 h2
    rw [offset_zero] at h2
    simp only [List.getD_cons_zero] at h2
    have hj : j < 5 := by omega
    interval_cases j <;> rfl)

/-- Claim C7: when the declared widths of a well-formed declaration sum to more
than the storage width `W`, construction still succeeds (the checked
constructor returns a value), the packed result is the unbounded packing taken
modulo `2 ^ W`, and every bit at position `≥ W` of the result is zero — the
overflow wraps silently. -/
theorem overflow_wraps (W : Nat) (ws vs : List Nat)
    (hWF : WF W ws) (hlen : vs.length = ws.length) (hsum : W < ws.sum) :
    newChecked W ws vs = some (new W ws vs) ∧
    new W ws vs = newUnbounded ws vs % 2 ^ W ∧
    ∀ j, W ≤ j → (new W ws vs).testBit j = false := by
  refine ⟨newChecked_eq W ws vs hWF hlen, new_eq_unbounded_mod W ws vs, ?_⟩
  intro j hj
  rw [testBit_new, listBit_eq_truncated]
  have h : ¬ j < W := by omega
  simp [h]

theorem overflow_wraps_witness :
    newChecked 8 [5, 5] [31, 31] = some (new 8 [5, 5] [31, 31]) ∧
    new 8 [5, 5] [31, 31] = newUnbounded [5, 5] [31, 31] % 2 ^ 8 ∧
    (new 8 [5, 5] [31, 31]).testBit 9 = false :=
  ⟨(overflow_wraps 8 [5, 5] [31, 31] (by decide) (by decide) (by decide)).1,
   (overflow_wraps 8 [5, 5] [31, 31] (by decide) (by decide) (by decide)).2.1,
   (overflow_wraps 8 [5, 5] [31, 31] (by decide) (by decide) (by decide)).2.2
     9 (by decide)⟩

/-- Claim C9: when the declared widths sum to `T ≤ W`, the stored integer the
constructor produces is strictly below `2 ^ T` — every bit at position `≥ T`
is zero — for all raw inputs. -/
theorem packed_below_width_sum (W : Nat) (ws vs : List Nat)
    (hWF : WF W ws) (hlen : vs.length = ws.length) (hsum : ws.sum ≤ W) :
    new W ws vs < 2 ^ ws.sum ∧
    ∀ j, ws.sum ≤ j → (new W ws vs).testBit j = false := by
  refine ⟨?_, fun j hj => testBit_new_eq_false_of_sum_le W ws vs j hj⟩
  exact Nat.lt_pow_two_of_testBit _
    (fun j hj => testBit_new_eq_false_of_sum_le W ws vs j hj)

theorem packed_below_width_sum_witness :
    new 16 [5, 4, 7] [25, 12, 99] < 2 ^ 16 ∧
    (new 16 [5, 4, 7] [25, 12, 99]).testBit 16 = false :=
  ⟨(packed_below_width_sum 16 [5, 4, 7] [25, 12, 99] (by decide) (by decide)
      (by decide)).1,
   (packed_below_width_sum 16 [5, 4, 7] [25, 12, 99] (by decide) (by decide)
      (by decide)).2 16 (by decide)⟩

/-- Claim C10: the getter generated for the first declared field — a mask with
no shift — is, as a function of the stored integer, exactly the general getter
formula `(s >>> offset) &&& mask` instantiated at offset `0`. -/
theorem first_field_getter_eq_general (ws : List Nat) (s : Nat) :
    getField ws 0 s = s &&& mask (ws.getD 0 0) ∧
    s &&& mask (ws.getD 0 0) = (s >>> (0 : Nat)) &&& mask (ws.getD 0 0) ∧
    getField ws 0 s = getFieldGeneral ws 0 s :=
  ⟨rfl, by rw [Nat.shiftRight_zero], getField_eq_general ws 0 s⟩

end PackedBits
